import Mathlib

/-!
Verification development for the camera-calibration program
(single source file "not super far gone.cpp").

The pipeline is shallowly embedded: 2D/3D points carry rational
coordinates (the source uses cv Point2f/Point3f, compared with exact
component equality), the per-camera correspondence store is the pair of
vectors imagePoints/objectPoints of the intrinsicCalibration struct, and
the external collaborators (marker detector, chessboard corner finder,
numeric solvers) appear as explicit inputs, exactly as the source
receives their results.
-/

namespace Calib

/-- Embedding of cv Point3f with exact (rational) coordinates. The source
compares object points with exact component equality, which this mirrors. -/
structure Point3 where
  x : ℚ
  y : ℚ
  z : ℚ
deriving DecidableEq, Repr

/-- Embedding of cv Point2f with exact (rational) coordinates. -/
structure Point2 where
  x : ℚ
  y : ℚ
deriving DecidableEq, Repr

/-- Embedding of the intrinsicCalibration struct: the camera matrix and
distortion coefficients (as plain rational arrays) together with the
per-image correspondence store. Fields rvecs, tvecs, reprojErrs and
totalAvgErr of the source struct are outputs of the external numeric
solver and are not needed by the claims about this struct. -/
structure IntrinsicCalibration where
  cameraMatrix : List (List ℚ)
  distCoeffs : List ℚ
  imagePoints : List (List Point2)
  objectPoints : List (List Point3)
deriving DecidableEq, Repr

/-- Invariant of a Point Correspondence Set collection: image-point and
object-point sequences agree in count image by image (hence also in the
number of images). -/
def pcsInvariant (c : IntrinsicCalibration) : Prop :=
  c.imagePoints.map List.length = c.objectPoints.map List.length

instance (c : IntrinsicCalibration) : Decidable (pcsInvariant c) := by
  unfold pcsInvariant
  infer_instance

/-- Embedding of getIntPoints (source lines 595-611). The plane label is
looked up in planeList at the given index; each recognized label applies
its affine transform with offset 1000 and denominator 125. The source
switch statement has no default case, so an unrecognized label leaves the
result vector empty. -/
def getIntPoints (planeList : List String) (points : List Point3) (index : Nat) : List Point3 :=
  if planeList.getD index "" = "XY" then
    points.map (fun p => ⟨(p.x + 1000) / 125, (p.y + 1000) / 125, 0⟩)
  else if planeList.getD index "" = "YZ" then
    points.map (fun p => ⟨0, (p.y + 1000) / 125, (-p.x + 1000) / 125⟩)
  else if planeList.getD index "" = "XZ" then
    points.map (fun p => ⟨(p.x + 1000) / 125, 0, (-p.y + 1000) / 125⟩)
  else
    []

/-- Embedding of the corner-selection switch of drawArucoMarkers (source
lines 689-703): XY picks corner 0, YZ corner 2, XZ corner 3, and the
default branch silently picks corner 3. -/
def drawArucoCorner (planeList : List String) (index : Nat) : Nat :=
  if planeList.getD index "" = "XY" then 0
  else if planeList.getD index "" = "YZ" then 2
  else if planeList.getD index "" = "XZ" then 3
  else 3

/-- Embedding of the inner scan of getSharedPoints (source lines 632-633):
the index of the first element of the list equal to p, scanning from the
front; equals the length of the list when p does not occur, exactly like
the C loop variable  shared  after the loop. -/
def findShared (p : Point3) : List Point3 → Nat
  | [] => 0
  | q :: rest => if q = p then 0 else findShared p rest + 1

/-- Embedding of the per-image body of getSharedPoints (source lines
630-639): for each object point of camera A (paired with its image
point), scan the full object-point list of camera B from the front; on a
hit, record the object point, the A-side image point and the B-side image
point found at the hit index. -/
def getSharedImage (oA : List Point3) (iA : List Point2) (oB : List Point3) (iB : List Point2) :
    List Point3 × List Point2 × List Point2 :=
  match oA, iA with
  | p :: oRest, q :: iRest =>
    let s := findShared p oB
    let r := getSharedImage oRest iRest oB iB
    if s < oB.length then (p :: r.1, q :: r.2.1, iB.getD s ⟨0, 0⟩ :: r.2.2)
    else r
  | _, _ => ([], [], [])

/-- Embedding of the outer loop of getSharedPoints (source lines 621-645),
walking the two collections image by image in lockstep. The shared
object-point list is written back to BOTH cameras (the source assigns
sharedObjectPoints to oPoints and to oPoints2); camera A receives
sharedImagePoints, camera B receives sharedImagePoints2. Entries of
camera B beyond the length of camera A are left untouched, as the loop
bound is the image count of camera A. -/
def getSharedLists :
    List (List Point3) → List (List Point2) → List (List Point3) → List (List Point2) →
    List (List Point3) × List (List Point2) × List (List Point3) × List (List Point2)
  | oA :: oAs, iA :: iAs, oB :: oBs, iB :: iBs =>
    let r := getSharedImage oA iA oB iB
    let rest := getSharedLists oAs iAs oBs iBs
    (r.1 :: rest.1, r.2.1 :: rest.2.1, r.1 :: rest.2.2.1, r.2.2 :: rest.2.2.2)
  | oAs, iAs, oBs, iBs => (oAs, iAs, oBs, iBs)

/-- Embedding of getSharedPoints (source lines 613-646) as a pure function
on the two calibration structs. -/
def getSharedPoints (inCal inCal2 : IntrinsicCalibration) :
    IntrinsicCalibration × IntrinsicCalibration :=
  let r := getSharedLists inCal.objectPoints inCal.imagePoints
      inCal2.objectPoints inCal2.imagePoints
  ({ inCal with objectPoints := r.1, imagePoints := r.2.1 },
   { inCal2 with objectPoints := r.2.2.1, imagePoints := r.2.2.2 })

/-- Four corner values of one aruco marker, in the fixed order upper left,
upper right, lower right, lower left used by the source. -/
structure Quad (α : Type) where
  c0 : α
  c1 : α
  c2 : α
  c3 : α
deriving DecidableEq, Repr

/-- Corner values as a list, in source order j = 0,1,2,3. -/
def Quad.toList {α : Type} (q : Quad α) : List α :=
  [q.c0, q.c1, q.c2, q.c3]

/-- A detected aruco marker: its identity and the four detected 2D image
corners (aruco Marker is a vector of exactly four Point2f). -/
structure Marker where
  mid : Int
  corners : Quad Point2
deriving DecidableEq, Repr

/-- One catalog entry of a marker map: a marker identity with its four 3D
corner points in the map-local frame. -/
structure MapMarker where
  mid : Int
  corners : Quad Point3
deriving DecidableEq, Repr

/-- Embedding of the marker-map lookup of calcArucoCorners (source lines
581-584): the loop runs while markerIndex == -1, so it yields the first
catalog entry with a matching id, or none. -/
def findMapMarker (mid : Int) : List MapMarker → Option MapMarker
  | [] => none
  | m :: rest => if m.mid = mid then some m else findMapMarker mid rest

/-- Embedding of calcArucoCorners (source lines 573-593): the buffers are
cleared, then each detected marker that occurs in the map contributes its
four image corners and the four map object corners, in detection order. -/
def calcArucoCorners (markersDetected : List Marker) (mmap : List MapMarker) :
    List Point2 × List Point3 :=
  match markersDetected with
  | [] => ([], [])
  | m :: rest =>
    match findMapMarker m.mid mmap with
    | some entry =>
      let r := calcArucoCorners rest mmap
      (m.corners.toList ++ r.1, entry.corners.toList ++ r.2)
    | none => calcArucoCorners rest mmap

/-- Embedding of the per-config loop body of arucoDetect (source lines
772-798) in calibration mode: for config j, the external detector output
is reduced by calcArucoCorners, the object half is unified by
getIntPoints with plane index j, and the buffers are appended to the
accumulated per-image vectors only when the unified object buffer is
nonempty. -/
def arucoDetectConfigs (planeList : List String) :
    List (List MapMarker × List Marker) → Nat → List Point2 × List Point3 →
    List Point2 × List Point3
  | [], _, acc => acc
  | (mmap, det) :: rest, j, acc =>
    let bufs := calcArucoCorners det mmap
    let objBuf := getIntPoints planeList bufs.2 j
    let acc2 := if 0 < objBuf.length then (acc.1 ++ bufs.1, acc.2 ++ objBuf) else acc
    arucoDetectConfigs planeList rest (j + 1) acc2

/-- Embedding of arucoDetect (source lines 746-799) in calibration mode:
the per-image entries at vectorIndex (preallocated by the caller, source
lines 1048-1053) are extended in place by the points gathered over all
configs. -/
def arucoDetect (planeList : List String) (configs : List (List MapMarker × List Marker))
    (inCal : IntrinsicCalibration) (vectorIndex : Nat) : IntrinsicCalibration :=
  let acc := arucoDetectConfigs planeList configs 0
      (inCal.imagePoints.getD vectorIndex [], inCal.objectPoints.getD vectorIndex [])
  { inCal with
      imagePoints := inCal.imagePoints.set vectorIndex acc.1,
      objectPoints := inCal.objectPoints.set vectorIndex acc.2 }

/-- Embedding of calcChessboardCorners (source lines 564-570): the object
grid, row index i over the board height, column index j over the width,
point (j * squareSize, i * squareSize, 0). -/
def calcChessboardCorners (boardWidth boardHeight : Nat) (squareSize : ℚ) : List Point3 :=
  (List.range boardHeight).flatMap (fun (i : Nat) =>
    (List.range boardWidth).map (fun (j : Nat) => ⟨(j : ℚ) * squareSize, (i : ℚ) * squareSize, 0⟩))

/-- Embedding of chessboardDetect (source lines 719-744): when the
external corner finder reports found, the (subpixel-refined) corner
buffer and the computed object grid are appended to the collection; when
it reports not found, the function returns without touching the
collection. The found corner list is an input, being the output of the
external detector. -/
def chessboardDetect (found : Bool) (cornersFound : List Point2)
    (boardWidth boardHeight : Nat) (squareSize : ℚ)
    (inCal : IntrinsicCalibration) : IntrinsicCalibration :=
  if found then
    { inCal with
        imagePoints := inCal.imagePoints ++ [cornersFound],
        objectPoints := inCal.objectPoints ++ [calcChessboardCorners boardWidth boardHeight squareSize] }
  else inCal

/-- Sum of squared coordinate differences between an observed and a
reprojected 2D point list (both real-valued); this is the square of the
L2 norm cv norm(Mat(a), Mat(b), CV_L2) computed by
computeReprojectionErrors. -/
noncomputable def imageSqErr (observed projected : List (ℝ × ℝ)) : ℝ :=
  ((observed.zip projected).map
    (fun q => (q.1.1 - q.2.1) ^ 2 + (q.1.2 - q.2.2) ^ 2)).sum

/-- Embedding of the loop of computeReprojectionErrors (source lines
551-560). Each image contributes its observed point list with the
reprojection of its object points (the output of the external
projectPoints, whose length equals the object-point count n). The loop
records sqrt(err * err / n) per image and accumulates err * err into
totalErr and n into totalPoints; those two accumulators are returned
alongside the per-image list. -/
noncomputable def reprojLoop :
    List (List (ℝ × ℝ) × List (ℝ × ℝ)) → ℝ → ℝ → List ℝ × ℝ × ℝ
  | [], totalErr, totalPoints => ([], totalErr, totalPoints)
  | img :: rest, totalErr, totalPoints =>
    let err := Real.sqrt (imageSqErr img.1 img.2)
    let n : ℝ := (img.2.length : ℝ)
    let r := reprojLoop rest (totalErr + err * err) (totalPoints + n)
    (Real.sqrt (err * err / n) :: r.1, r.2)

/-- Embedding of computeReprojectionErrors (source lines 545-562): the
per-image error vector written into reprojErrs, and the returned overall
value sqrt(totalErr / totalPoints). -/
noncomputable def computeReprojectionErrors
    (imgs : List (List (ℝ × ℝ) × List (ℝ × ℝ))) : List ℝ × ℝ :=
  let r := reprojLoop imgs 0 0
  (r.1, Real.sqrt (r.2.1 / r.2.2))

/-- OpenCV calibration flag constant: use the supplied intrinsics as the
initial guess. -/
def CV_CALIB_USE_INTRINSIC_GUESS : Nat := 1

/-- OpenCV calibration flag constant: fix the aspect ratio. -/
def CV_CALIB_FIX_ASPECT_RATIO_BIT : Nat := 2

/-- OpenCV calibration flag constant: fix the principal point. -/
def CV_CALIB_FIX_PRINCIPAL_POINT : Nat := 4

/-- OpenCV calibration flag constant: assume zero tangential distortion. -/
def CV_CALIB_ZERO_TANGENT_DIST : Nat := 8

/-- OpenCV calibration flag constant: fix radial coefficient k1; the
source shifts this bit to reach k2 through k5. -/
def CV_CALIB_FIX_K1 : Nat := 32

/-- Embedding of the flag construction in Settings interprate (source
lines 233-249): each of the five fixDistCoeffs digits sets
CV_CALIB_FIX_K1 shifted by i for i < 3 and by i + 3 for i of 3 or 4, then
the three boolean or nonzero options add their bits. -/
def computeFlag (fixDistCoeffs : List Bool) (fixPrincipalPoint assumeZeroTangentDist : Bool)
    (aspect : ℚ) : Nat :=
  let f := (List.range 5).foldl
    (fun acc i =>
      if fixDistCoeffs.getD i false then
        acc ||| (CV_CALIB_FIX_K1 <<< (if 3 ≤ i then i + 3 else i))
      else acc) 0
  let f := if fixPrincipalPoint then f ||| CV_CALIB_FIX_PRINCIPAL_POINT else f
  let f := if assumeZeroTangentDist then f ||| CV_CALIB_ZERO_TANGENT_DIST else f
  if aspect ≠ 0 then f ||| CV_CALIB_FIX_ASPECT_RATIO_BIT else f

/-- The arguments runIntrinsicCalibration hands to the external
calibrateCamera solver: the seed camera matrix, the seed distortion
coefficients and the flag word. -/
structure CalibrateCameraCall where
  cameraMatrixSeed : List (List ℚ)
  distCoeffsSeed : List ℚ
  flags : Nat
deriving DecidableEq, Repr

/-- The 3 by 3 identity matrix Mat eye(3, 3, CV_64F). -/
def eye3 : List (List ℚ) := [[1, 0, 0], [0, 1, 0], [0, 0, 1]]

/-- The 8 by 1 zero vector Mat zeros(8, 1, CV_64F). -/
def zeros8 : List ℚ := List.replicate 8 0

/-- Embedding of the seeding branch of runIntrinsicCalibration (source
lines 911-936): with intrinsic input, the solve is seeded with the input
matrices and the flag word gains CV_CALIB_USE_INTRINSIC_GUESS; without
it, the seed is the identity camera matrix and zero distortion and the
flag word is passed unchanged. -/
def runIntrinsicCalibrationCall (useIntrinsicInput : Bool)
    (inputCameraMatrix : List (List ℚ)) (inputDistCoeffs : List ℚ)
    (flag : Nat) : CalibrateCameraCall :=
  if useIntrinsicInput then
    { cameraMatrixSeed := inputCameraMatrix,
      distCoeffsSeed := inputDistCoeffs,
      flags := flag ||| CV_CALIB_USE_INTRINSIC_GUESS }
  else
    { cameraMatrixSeed := eye3,
      distCoeffsSeed := zeros8,
      flags := flag }

/-- Embedding of the intrinsic-assignment stage of runStereoCalibration
(source lines 942-948): with intrinsic input, the single input camera
matrix and distortion vector are written into BOTH cameras before the
stereo solve; without it, both structs pass through unchanged. -/
def runStereoCalibrationIntrinsics (useIntrinsicInput : Bool)
    (inputCameraMatrix : List (List ℚ)) (inputDistCoeffs : List ℚ)
    (inCal inCal2 : IntrinsicCalibration) :
    IntrinsicCalibration × IntrinsicCalibration :=
  if useIntrinsicInput then
    ({ inCal with cameraMatrix := inputCameraMatrix, distCoeffs := inputDistCoeffs },
     { inCal2 with cameraMatrix := inputCameraMatrix, distCoeffs := inputDistCoeffs })
  else (inCal, inCal2)

/-! Helper lemmas about the shared-point scan. -/

theorem findShared_le (p : Point3) (l : List Point3) : findShared p l ≤ l.length := by
  induction l with
  | nil => simp [findShared]
  | cons q rest ih =>
    simp only [findShared, List.length_cons]
    split
    · omega
    · omega

theorem findShared_lt_iff (p : Point3) (l : List Point3) :
    findShared p l < l.length ↔ p ∈ l := by
  induction l with
  | nil => simp [findShared]
  | cons q rest ih =>
    simp only [findShared, List.length_cons, List.mem_cons]
    split
    · rename_i hq
      simp [hq]
    · rename_i hq
      constructor
      · intro h
        right
        exact ih.mp (by omega)
      · intro h
        rcases h with h | h
        · exact absurd h.symm hq
        · have := ih.mpr h
          omega

theorem findShared_getD (p : Point3) (l : List Point3) (d : Point3) (h : p ∈ l) :
    l.getD (findShared p l) d = p := by
  induction l with
  | nil => simp at h
  | cons q rest ih =>
    simp only [findShared]
    split
    · rename_i hq
      simpa using hq
    · rename_i hq
      have hp : p ∈ rest := by
        rcases List.mem_cons.mp h with h1 | h1
        · exact absurd h1.symm hq
        · exact h1
      simpa using ih hp

theorem findShared_min (p : Point3) (l : List Point3) (d : Point3) (s : Nat)
    (hs : s < findShared p l) : l.getD s d ≠ p := by
  induction l generalizing s with
  | nil => simp [findShared] at hs
  | cons q rest ih =>
    simp only [findShared] at hs
    by_cases hq : q = p
    · simp [hq] at hs
    · simp only [hq, if_false] at hs
      cases s with
      | zero => simpa using hq
      | succ s =>
        have := ih s (by omega)
        simpa using this

theorem findShared_getElem (l : List Point3) (hn : l.Nodup) (k : Nat) (hk : k < l.length) :
    findShared (l.get ⟨k, hk⟩) l = k := by
  induction l generalizing k with
  | nil => simp at hk
  | cons q rest ih =>
    cases k with
    | zero => simp [findShared]
    | succ k =>
      have hk2 : k < rest.length := by simpa using hk
      have hmem : rest.get ⟨k, hk2⟩ ∈ rest := List.get_mem rest k hk2
      have hq : q ≠ rest.get ⟨k, hk2⟩ := by
        intro he
        exact (List.nodup_cons.mp hn).1 (he ▸ hmem)
      simp only [List.get_cons_succ, findShared, hq, if_false]
      rw [ih (List.nodup_cons.mp hn).2 k hk2]

theorem getSharedImage_lengths (oA : List Point3) (iA : List Point2)
    (oB : List Point3) (iB : List Point2) :
    (getSharedImage oA iA oB iB).2.1.length = (getSharedImage oA iA oB iB).1.length ∧
    (getSharedImage oA iA oB iB).2.2.length = (getSharedImage oA iA oB iB).1.length := by
  induction oA generalizing iA with
  | nil => simp [getSharedImage]
  | cons p oRest ih =>
    cases iA with
    | nil => simp [getSharedImage]
    | cons q iRest =>
      simp only [getSharedImage]
      split
      · simpa using ih iRest
      · exact ih iRest

theorem getSharedImage_mem (oA : List Point3) (iA : List Point2)
    (oB : List Point3) (iB : List Point2) (hlen : iA.length = oA.length) (p : Point3) :
    p ∈ (getSharedImage oA iA oB iB).1 ↔ p ∈ oA ∧ p ∈ oB := by
  induction oA generalizing iA with
  | nil => simp [getSharedImage]
  | cons p0 oRest ih =>
    cases iA with
    | nil => simp at hlen
    | cons q iRest =>
      have hlen2 : iRest.length = oRest.length := by simpa using hlen
      simp only [getSharedImage]
      split
      · rename_i hfound
        have hp0 : p0 ∈ oB := (findShared_lt_iff p0 oB).mp hfound
        simp only [List.mem_cons, ih iRest hlen2]
        constructor
        · intro h
          rcases h with h | ⟨h1, h2⟩
          · exact ⟨Or.inl h, h ▸ hp0⟩
          · exact ⟨Or.inr h1, h2⟩
        · intro ⟨h1, h2⟩
          rcases h1 with h1 | h1
          · exact Or.inl h1
          · exact Or.inr ⟨h1, h2⟩
      · rename_i hfound
        have hp0 : p0 ∉ oB := by
          intro hmem
          exact hfound ((findShared_lt_iff p0 oB).mpr hmem)
        rw [ih iRest hlen2]
        simp only [List.mem_cons]
        constructor
        · intro ⟨h1, h2⟩
          exact ⟨Or.inr h1, h2⟩
        · intro ⟨h1, h2⟩
          rcases h1 with h1 | h1
          · exact absurd (h1 ▸ h2) hp0
          · exact ⟨h1, h2⟩

theorem mapLen_eq_iff {α β : Type} (L : List (List α)) (M : List (List β)) :
    L.map List.length = M.map List.length ↔
      L.length = M.length ∧ ∀ i, (L.getD i []).length = (M.getD i []).length := by
  induction L generalizing M with
  | nil =>
    cases M with
    | nil => simp
    | cons b M => simp
  | cons a L ih =>
    cases M with
    | nil => simp
    | cons b M =>
      simp only [List.map_cons, List.cons.injEq, List.length_cons]
      constructor
      · intro ⟨h1, h2⟩
        have := (ih M).mp h2
        refine ⟨by omega, ?_⟩
        intro i
        cases i with
        | zero => simpa using h1
        | succ i => simpa using this.2 i
      · intro ⟨h1, h2⟩
        have h0 := h2 0
        simp only [List.getD_cons_zero] at h0
        refine ⟨h0, (ih M).mpr ⟨by omega, ?_⟩⟩
        intro i
        have := h2 (i + 1)
        simpa using this

theorem set_getD_self {α : Type} (l : List (List α)) (i : Nat) :
    l.set i (l.getD i []) = l := by
  induction l generalizing i with
  | nil => simp
  | cons a l ih =>
    cases i with
    | zero => simp
    | succ i =>
      simp only [List.getD_cons_succ, List.set_cons_succ]
      rw [ih]

theorem calcArucoCorners_lengths (det : List Marker) (mmap : List MapMarker) :
    (calcArucoCorners det mmap).1.length = (calcArucoCorners det mmap).2.length := by
  induction det with
  | nil => simp [calcArucoCorners]
  | cons m rest ih =>
    simp only [calcArucoCorners]
    cases findMapMarker m.mid mmap with
    | none => simpa using ih
    | some entry => simp [Quad.toList, ih]

theorem getIntPoints_length_or (planeList : List String) (points : List Point3) (index : Nat) :
    getIntPoints planeList points index = [] ∨
      (getIntPoints planeList points index).length = points.length := by
  unfold getIntPoints
  split_ifs <;> simp

theorem arucoDetectConfigs_len (planeList : List String)
    (cfgs : List (List MapMarker × List Marker)) :
    ∀ (j : Nat) (acc : List Point2 × List Point3), acc.1.length = acc.2.length →
      (arucoDetectConfigs planeList cfgs j acc).1.length =
        (arucoDetectConfigs planeList cfgs j acc).2.length := by
  induction cfgs with
  | nil => intro j acc h; simpa [arucoDetectConfigs] using h
  | cons cfg rest ih =>
    intro j acc h
    obtain ⟨mmap, det⟩ := cfg
    simp only [arucoDetectConfigs]
    apply ih
    rcases getIntPoints_length_or planeList (calcArucoCorners det mmap).2 j with h0 | h0
    · simp [h0, h]
    · split
      · rename_i hpos
        simp only [List.length_append]
        rw [h, h0, calcArucoCorners_lengths]
      · exact h

theorem calcChessboardCorners_length (w h : Nat) (sq : ℚ) :
    (calcChessboardCorners w h sq).length = h * w := by
  unfold calcChessboardCorners
  induction h with
  | zero => simp
  | succ h ihh =>
    rw [List.range_succ, List.flatMap_append, List.length_append, ihh]
    simp [Nat.succ_mul]

theorem getSharedLists_spec (oAs : List (List Point3)) (iAs : List (List Point2))
    (oBs : List (List Point3)) (iBs : List (List Point2))
    (h1 : iAs.length = oAs.length) (h2 : oBs.length = oAs.length)
    (h3 : iBs.length = oAs.length) :
    (getSharedLists oAs iAs oBs iBs).1.length = oAs.length ∧
    (getSharedLists oAs iAs oBs iBs).2.1.length = oAs.length ∧
    (getSharedLists oAs iAs oBs iBs).2.2.1.length = oAs.length ∧
    (getSharedLists oAs iAs oBs iBs).2.2.2.length = oAs.length ∧
    (getSharedLists oAs iAs oBs iBs).2.2.1 = (getSharedLists oAs iAs oBs iBs).1 ∧
    ∀ i : Nat,
      (getSharedLists oAs iAs oBs iBs).1.getD i [] =
        (getSharedImage (oAs.getD i []) (iAs.getD i []) (oBs.getD i []) (iBs.getD i [])).1 ∧
      (getSharedLists oAs iAs oBs iBs).2.1.getD i [] =
        (getSharedImage (oAs.getD i []) (iAs.getD i []) (oBs.getD i []) (iBs.getD i [])).2.1 ∧
      (getSharedLists oAs iAs oBs iBs).2.2.2.getD i [] =
        (getSharedImage (oAs.getD i []) (iAs.getD i []) (oBs.getD i []) (iBs.getD i [])).2.2 := by
  induction oAs generalizing iAs oBs iBs with
  | nil =>
    have e1 : iAs = [] := List.length_eq_zero.mp (by simpa using h1)
    have e2 : oBs = [] := List.length_eq_zero.mp (by simpa using h2)
    have e3 : iBs = [] := List.length_eq_zero.mp (by simpa using h3)
    subst e1; subst e2; subst e3
    refine ⟨rfl, rfl, rfl, rfl, rfl, ?_⟩
    intro i
    simp [getSharedLists, getSharedImage]
  | cons oA oAs ih =>
    cases iAs with
    | nil => simp at h1
    | cons iA iAs =>
    cases oBs with
    | nil => simp at h2
    | cons oB oBs =>
    cases iBs with
    | nil => simp at h3
    | cons iB iBs =>
    have h1b : iAs.length = oAs.length := by simpa using h1
    have h2b : oBs.length = oAs.length := by simpa using h2
    have h3b : iBs.length = oAs.length := by simpa using h3
    obtain ⟨k1, k2, k3, k4, k5, k6⟩ := ih iAs oBs iBs h1b h2b h3b
    simp only [getSharedLists]
    refine ⟨by simpa using k1, by simpa using k2, by simpa using k3, by simpa using k4,
      by simp [k5], ?_⟩
    intro i
    cases i with
    | zero => simp
    | succ i => simpa using k6 i

theorem getSharedImage_self_drop (oB : List Point3) (iB : List Point2)
    (hn : oB.Nodup) (hl : iB.length = oB.length) :
    ∀ n k, oB.length - k ≤ n →
      getSharedImage (oB.drop k) (iB.drop k) oB iB = (oB.drop k, iB.drop k, iB.drop k) := by
  intro n
  induction n with
  | zero =>
    intro k hk
    have ho : oB.length ≤ k := by omega
    have hi : iB.length ≤ k := by omega
    rw [List.drop_eq_nil_of_le ho, List.drop_eq_nil_of_le hi]
    rfl
  | succ n ih =>
    intro k hk
    by_cases hkl : k < oB.length
    · have hki : k < iB.length := by omega
      rw [List.drop_eq_getElem_cons hkl, List.drop_eq_getElem_cons hki]
      simp only [getSharedImage]
      have hfs : findShared oB[k] oB = k := by
        have := findShared_getElem oB hn k hkl
        simpa using this
      rw [hfs]
      rw [if_pos hkl]
      rw [ih (k + 1) (by omega)]
      have hgd : iB.getD k ⟨0, 0⟩ = iB[k] := by
        simp [List.getD_eq_getElem?_getD, List.getElem?_eq_getElem hki]
      rw [hgd]
    · have ho : oB.length ≤ k := by omega
      have hi : iB.length ≤ k := by omega
      rw [List.drop_eq_nil_of_le ho, List.drop_eq_nil_of_le hi]
      rfl

theorem getSharedImage_self (oB : List Point3) (iB : List Point2)
    (hn : oB.Nodup) (hl : iB.length = oB.length) :
    getSharedImage oB iB oB iB = (oB, iB, iB) := by
  have := getSharedImage_self_drop oB iB hn hl oB.length 0 (by omega)
  simpa using this

theorem getSharedLists_self (os : List (List Point3)) (is : List (List Point2))
    (hlen : is.map List.length = os.map List.length)
    (hnd : ∀ l ∈ os, l.Nodup) :
    getSharedLists os is os is = (os, is, os, is) := by
  induction os generalizing is with
  | nil =>
    have e1 : is = [] := by
      have := congrArg List.length hlen
      simpa using List.length_eq_zero.mp (by simpa using this)
    subst e1
    rfl
  | cons o os ih =>
    cases is with
    | nil => simp at hlen
    | cons i is =>
      have h0 : i.length = o.length := by simpa using congrArg (fun l => l.getD 0 0) hlen
      have hrest : is.map List.length = os.map List.length := by
        simpa using congrArg List.tail hlen
      simp only [getSharedLists]
      rw [getSharedImage_self o i (hnd o (by simp)) h0]
      rw [ih is hrest (fun l hl => hnd l (by simp [hl]))]

theorem lor_even {a b : Nat} (ha : a % 2 = 0) (hb : b % 2 = 0) : (a ||| b) % 2 = 0 := by
  have h : ¬ ((a ||| b) % 2 = 1) := by
    rw [Nat.or_mod_two_eq_one]
    omega
  omega

theorem lor_one_odd (f : Nat) : (f ||| 1) % 2 = 1 := by
  simp

theorem distFoldl_even (fd : List Bool) (L : List Nat) :
    ∀ acc : Nat, acc % 2 = 0 →
      (L.foldl (fun acc i =>
        if fd.getD i false then acc ||| (CV_CALIB_FIX_K1 <<< (if 3 ≤ i then i + 3 else i))
        else acc) acc) % 2 = 0 := by
  induction L with
  | nil => intro acc h; simpa using h
  | cons a L ih =>
    intro acc h
    simp only [List.foldl_cons]
    apply ih
    split
    · apply lor_even h
      rw [Nat.shiftLeft_eq]
      unfold CV_CALIB_FIX_K1
      have hdvd : 2 ∣ 32 * 2 ^ (if 3 ≤ a then a + 3 else a) :=
        ⟨16 * 2 ^ (if 3 ≤ a then a + 3 else a), by ring⟩
      omega
    · exact h

theorem computeFlag_even (fd : List Bool) (fpp azt : Bool) (aspect : ℚ) :
    computeFlag fd fpp azt aspect % 2 = 0 := by
  have h0 : ((List.range 5).foldl (fun acc i =>
      if fd.getD i false then acc ||| (CV_CALIB_FIX_K1 <<< (if 3 ≤ i then i + 3 else i))
      else acc) 0) % 2 = 0 := distFoldl_even fd (List.range 5) 0 rfl
  simp only [computeFlag]
  split_ifs <;>
  · repeat apply lor_even
    all_goals first | exact h0 | decide

/-- C2: for every valid plane label the Plane Unifier getIntPoints applies
exactly the plane-specific affine transform with offset 1000 and
denominator 125: XY maps (x,y,z) to ((x+1000)/125, (y+1000)/125, 0), YZ
maps it to (0, (y+1000)/125, (-x+1000)/125), XZ maps it to ((x+1000)/125,
0, (-y+1000)/125); in particular a local point (0,0,0) yields (8,8,0)
under XY and (0,8,8) under YZ, two distinct unified points. -/
theorem C2_getIntPoints_transforms (planeList : List String) (points : List Point3)
    (index : Nat) :
    (planeList.getD index "" = "XY" →
      getIntPoints planeList points index =
        points.map (fun p => ⟨(p.x + 1000) / 125, (p.y + 1000) / 125, 0⟩)) ∧
    (planeList.getD index "" = "YZ" →
      getIntPoints planeList points index =
        points.map (fun p => ⟨0, (p.y + 1000) / 125, (-p.x + 1000) / 125⟩)) ∧
    (planeList.getD index "" = "XZ" →
      getIntPoints planeList points index =
        points.map (fun p => ⟨(p.x + 1000) / 125, 0, (-p.y + 1000) / 125⟩)) ∧
    getIntPoints ["XY"] [⟨0, 0, 0⟩] 0 = [⟨8, 8, 0⟩] ∧
    getIntPoints ["YZ"] [⟨0, 0, 0⟩] 0 = [⟨0, 8, 8⟩] ∧
    (⟨8, 8, 0⟩ : Point3) ≠ ⟨0, 8, 8⟩ := by
  refine ⟨?_, ?_, ?_, ?_, ?_, by decide⟩
  · intro h
    unfold getIntPoints
    rw [h]
    simp
  · intro h
    unfold getIntPoints
    rw [h]
    simp
  · intro h
    unfold getIntPoints
    rw [h]
    simp
  · unfold getIntPoints
    rw [if_pos (by decide)]
    norm_num
  · unfold getIntPoints
    rw [if_neg (by decide), if_pos (by decide)]
    norm_num

/-- Witness for C2: the YZ transform evaluated at the point (1,2,3). -/
theorem C2_witness :
    getIntPoints ["YZ"] [⟨1, 2, 3⟩] 0 =
      ([⟨1, 2, 3⟩] : List Point3).map
        (fun p => ⟨0, (p.y + 1000) / 125, (-p.x + 1000) / 125⟩) :=
  (C2_getIntPoints_transforms ["YZ"] [⟨1, 2, 3⟩] 0).2.1 (by decide)

/-- Counterexample for C4: at the concrete unrecognized plane label QQ the
unify operation does NOT fail: it silently returns a result (the empty
point list, since the source switch has no default case and no error
path), and the drawArucoMarkers corner switch silently defaults to corner
3. This refutes the claim that an InvalidConfiguration error is raised
rather than silently returning a result. -/
theorem C4_counterexample :
    getIntPoints ["QQ"] [⟨1, 2, 3⟩] 0 = [] ∧ drawArucoCorner ["QQ"] 0 = 3 := by
  refine ⟨by decide, by decide⟩

/-- C4 amended: for every input point sequence and every plane label
outside XY, YZ, XZ, the unify operation silently returns the empty point
list, and the drawArucoMarkers corner switch silently defaults to corner
3; no error is raised. -/
theorem C4_amended_silent (planeList : List String) (points : List Point3) (index : Nat)
    (h1 : planeList.getD index "" ≠ "XY")
    (h2 : planeList.getD index "" ≠ "YZ")
    (h3 : planeList.getD index "" ≠ "XZ") :
    getIntPoints planeList points index = [] ∧ drawArucoCorner planeList index = 3 := by
  constructor
  · unfold getIntPoints
    rw [if_neg h1, if_neg h2, if_neg h3]
  · unfold drawArucoCorner
    rw [if_neg h1, if_neg h2, if_neg h3]

/-- Witness for the amended C4 at the concrete label ZZ. -/
theorem C4_witness :
    getIntPoints ["ZZ"] [⟨0, 0, 0⟩] 0 = [] ∧ drawArucoCorner ["ZZ"] 0 = 3 :=
  C4_amended_silent ["ZZ"] [⟨0, 0, 0⟩] 0 (by decide) (by decide) (by decide)

/-- C9: when a prior intrinsic estimate is supplied the solve is seeded
with the prior camera matrix and distortion coefficients and the
use-as-initial-guess flag is added to the flag word handed to the
external solver; otherwise the solve is seeded with the 3 by 3 identity
camera matrix and all-zero distortion coefficients and the flag word is
passed unchanged. The flag word built from the settings never contains
the guess bit, so the solver receives the guess bit exactly when a prior
was supplied. -/
theorem C9_intrinsic_seeding (fixDistCoeffs : List Bool)
    (fixPrincipalPoint assumeZeroTangentDist : Bool) (aspect : ℚ)
    (cam : List (List ℚ)) (dist : List ℚ) (useInput : Bool) :
    (runIntrinsicCalibrationCall true cam dist
        (computeFlag fixDistCoeffs fixPrincipalPoint assumeZeroTangentDist aspect) =
      ⟨cam, dist,
        computeFlag fixDistCoeffs fixPrincipalPoint assumeZeroTangentDist aspect |||
          CV_CALIB_USE_INTRINSIC_GUESS⟩) ∧
    (runIntrinsicCalibrationCall false cam dist
        (computeFlag fixDistCoeffs fixPrincipalPoint assumeZeroTangentDist aspect) =
      ⟨eye3, zeros8,
        computeFlag fixDistCoeffs fixPrincipalPoint assumeZeroTangentDist aspect⟩) ∧
    ((runIntrinsicCalibrationCall useInput cam dist
        (computeFlag fixDistCoeffs fixPrincipalPoint assumeZeroTangentDist aspect)).flags &&&
          CV_CALIB_USE_INTRINSIC_GUESS ≠ 0 ↔ useInput = true) := by
  refine ⟨rfl, rfl, ?_⟩
  have heven := computeFlag_even fixDistCoeffs fixPrincipalPoint assumeZeroTangentDist aspect
  cases useInput with
  | true =>
    simp only [runIntrinsicCalibrationCall, if_pos]
    rw [CV_CALIB_USE_INTRINSIC_GUESS]
    rw [Nat.and_one_is_mod, lor_one_odd]
    simp
  | false =>
    simp only [runIntrinsicCalibrationCall, Bool.false_eq_true, if_false]
    rw [CV_CALIB_USE_INTRINSIC_GUESS]
    rw [Nat.and_one_is_mod, heven]
    simp

/-- C10: in stereo mode with an intrinsic prior supplied, the single
prior camera matrix and distortion vector are assigned to both cameras
before the stereo solve, so both cameras are modeled with identical
intrinsics. -/
theorem C10_stereo_prior_both (cam : List (List ℚ)) (dist : List ℚ)
    (inCal inCal2 : IntrinsicCalibration) :
    ((runStereoCalibrationIntrinsics true cam dist inCal inCal2).1.cameraMatrix = cam) ∧
    ((runStereoCalibrationIntrinsics true cam dist inCal inCal2).2.cameraMatrix = cam) ∧
    ((runStereoCalibrationIntrinsics true cam dist inCal inCal2).1.distCoeffs = dist) ∧
    ((runStereoCalibrationIntrinsics true cam dist inCal inCal2).2.distCoeffs = dist) := by
  simp [runStereoCalibrationIntrinsics]

/-- C1: for collections A and B of equal length whose image- and
object-point lists are aligned image by image, getSharedPoints produces,
for each image index, object-point outputs that are the SAME list for
both cameras (so the multiset of 3D points in both outputs is identical
and output lengths agree), containing exactly the 3D points present in
both inputs under exact equality, with the two 2D outputs of equal
length per image. -/
theorem C1_matchShared_exact (A B : IntrinsicCalibration)
    (hA : pcsInvariant A) (hB : pcsInvariant B)
    (hlen : A.objectPoints.length = B.objectPoints.length) :
    (getSharedPoints A B).1.objectPoints = (getSharedPoints A B).2.objectPoints ∧
    ∀ i : Nat,
      ((getSharedPoints A B).1.imagePoints.getD i []).length =
        ((getSharedPoints A B).2.imagePoints.getD i []).length ∧
      ((getSharedPoints A B).1.imagePoints.getD i []).length =
        ((getSharedPoints A B).1.objectPoints.getD i []).length ∧
      ∀ p : Point3,
        p ∈ (getSharedPoints A B).1.objectPoints.getD i [] ↔
          p ∈ A.objectPoints.getD i [] ∧ p ∈ B.objectPoints.getD i [] := by
  have hAi := (mapLen_eq_iff A.imagePoints A.objectPoints).mp hA
  have hBi := (mapLen_eq_iff B.imagePoints B.objectPoints).mp hB
  obtain ⟨k1, k2, k3, k4, k5, k6⟩ :=
    getSharedLists_spec A.objectPoints A.imagePoints B.objectPoints B.imagePoints
      hAi.1 hlen.symm (by omega)
  simp only [getSharedPoints]
  refine ⟨k5.symm, ?_⟩
  intro i
  obtain ⟨e1, e2, e3⟩ := k6 i
  refine ⟨?_, ?_, ?_⟩
  · rw [e2, e3]
    exact ((getSharedImage_lengths _ _ _ _).1).trans ((getSharedImage_lengths _ _ _ _).2).symm
  · rw [e2, e1]
    exact (getSharedImage_lengths _ _ _ _).1
  · intro p
    rw [e1]
    exact getSharedImage_mem _ _ _ _ (hAi.2 i) p

/-- Witness for C1: camera A sees object points (1,1,1), (2,2,2), (3,3,3)
and camera B sees (2,2,2), (3,3,3), (4,4,4); the two output object-point
collections coincide. -/
theorem C1_witness :
    (getSharedPoints
        ⟨[], [], [[⟨1, 1⟩, ⟨2, 2⟩, ⟨3, 3⟩]], [[⟨1, 1, 1⟩, ⟨2, 2, 2⟩, ⟨3, 3, 3⟩]]⟩
        ⟨[], [], [[⟨4, 4⟩, ⟨5, 5⟩, ⟨6, 6⟩]], [[⟨2, 2, 2⟩, ⟨3, 3, 3⟩, ⟨4, 4, 4⟩]]⟩).1.objectPoints =
      (getSharedPoints
        ⟨[], [], [[⟨1, 1⟩, ⟨2, 2⟩, ⟨3, 3⟩]], [[⟨1, 1, 1⟩, ⟨2, 2, 2⟩, ⟨3, 3, 3⟩]]⟩
        ⟨[], [], [[⟨4, 4⟩, ⟨5, 5⟩, ⟨6, 6⟩]], [[⟨2, 2, 2⟩, ⟨3, 3, 3⟩, ⟨4, 4, 4⟩]]⟩).2.objectPoints :=
  (C1_matchShared_exact
    ⟨[], [], [[⟨1, 1⟩, ⟨2, 2⟩, ⟨3, 3⟩]], [[⟨1, 1, 1⟩, ⟨2, 2, 2⟩, ⟨3, 3, 3⟩]]⟩
    ⟨[], [], [[⟨4, 4⟩, ⟨5, 5⟩, ⟨6, 6⟩]], [[⟨2, 2, 2⟩, ⟨3, 3, 3⟩, ⟨4, 4, 4⟩]]⟩
    (by decide) (by decide) (by decide)).1

/-- Counterexample for C6: camera A holds the object point (7,7,7) twice,
camera B holds it once together with 2D point (9,9); the inner scan
restarts from the front of the B list for the second A point, so the
single B point is matched a second time and the B-side output 2D list is
[(9,9),(9,9)] — one point of B matched to two points of A, refuting the
claim that scanning continues from the next unmatched position in B. -/
theorem C6_counterexample :
    (getSharedPoints ⟨[], [], [[⟨1, 1⟩, ⟨2, 2⟩]], [[⟨7, 7, 7⟩, ⟨7, 7, 7⟩]]⟩
        ⟨[], [], [[⟨9, 9⟩]], [[⟨7, 7, 7⟩]]⟩).2.imagePoints = [[⟨9, 9⟩, ⟨9, 9⟩]] := by
  decide

/-- C6 amended: for each point p of camera A the matcher scans camera B
linearly from the FRONT of the list: the match position findShared p oB
is the first index holding p (it is a valid index exactly when p occurs,
its entry is p, and all earlier entries differ from p), and after a match
the remaining A points are matched against the SAME full B list — not
from the next unmatched position — so a B point can be matched to more
than one A point when A holds duplicate 3D values. -/
theorem C6_amended_first_match (p : Point3) (oB : List Point3) (hp : p ∈ oB) :
    findShared p oB < oB.length ∧
    oB.getD (findShared p oB) ⟨0, 0, 0⟩ = p ∧
    (∀ s, s < findShared p oB → oB.getD s ⟨0, 0, 0⟩ ≠ p) ∧
    ∀ (oA : List Point3) (iA : List Point2) (q : Point2) (iB : List Point2),
      getSharedImage (p :: oA) (q :: iA) oB iB =
        (p :: (getSharedImage oA iA oB iB).1,
         q :: (getSharedImage oA iA oB iB).2.1,
         iB.getD (findShared p oB) ⟨0, 0⟩ :: (getSharedImage oA iA oB iB).2.2) := by
  have h1 := (findShared_lt_iff p oB).mpr hp
  refine ⟨h1, findShared_getD p oB _ hp, fun s hs => findShared_min p oB _ s hs, ?_⟩
  intro oA iA q iB
  simp only [getSharedImage]
  rw [if_pos h1]

/-- Witness for the amended C6 at p = (7,7,7) with B list holding p at
its front. -/
theorem C6_witness :
    getSharedImage [⟨7, 7, 7⟩] [⟨1, 1⟩] [⟨7, 7, 7⟩] [⟨9, 9⟩] =
      (⟨7, 7, 7⟩ :: (getSharedImage [] [] [⟨7, 7, 7⟩] [⟨9, 9⟩]).1,
       ⟨1, 1⟩ :: (getSharedImage [] [] [⟨7, 7, 7⟩] [⟨9, 9⟩]).2.1,
       ([⟨9, 9⟩] : List Point2).getD (findShared ⟨7, 7, 7⟩ [⟨7, 7, 7⟩]) ⟨0, 0⟩ ::
         (getSharedImage [] [] [⟨7, 7, 7⟩] [⟨9, 9⟩]).2.2) :=
  (C6_amended_first_match ⟨7, 7, 7⟩ [⟨7, 7, 7⟩] (by decide)).2.2.2 [] [] ⟨1, 1⟩ [⟨9, 9⟩]

/-- Counterexample for C7: a collection whose single image holds the SAME
object point (5,5,5) twice with distinct 2D points (1,1) and (2,2);
matching the collection against a copy of itself rewrites the B-side 2D
list to [(1,1),(1,1)] (both A points match the first B entry), so the
output differs from the original pair, refuting unconditional
idempotence. -/
theorem C7_counterexample :
    getSharedPoints ⟨[], [], [[⟨1, 1⟩, ⟨2, 2⟩]], [[⟨5, 5, 5⟩, ⟨5, 5, 5⟩]]⟩
        ⟨[], [], [[⟨1, 1⟩, ⟨2, 2⟩]], [[⟨5, 5, 5⟩, ⟨5, 5, 5⟩]]⟩ ≠
      (⟨[], [], [[⟨1, 1⟩, ⟨2, 2⟩]], [[⟨5, 5, 5⟩, ⟨5, 5, 5⟩]]⟩,
       ⟨[], [], [[⟨1, 1⟩, ⟨2, 2⟩]], [[⟨5, 5, 5⟩, ⟨5, 5, 5⟩]]⟩) := by
  decide

/-- C7 amended: getSharedPoints applied to two copies of a collection
returns both collections unchanged PROVIDED each image holds pairwise
distinct 3D object points (which holds for real box-rig data, where each
unified marker corner is unique); with duplicate object points in an
image the B-side 2D points are rewritten (see the counterexample). -/
theorem C7_amended_idempotent (c : IntrinsicCalibration) (hc : pcsInvariant c)
    (hnd : ∀ l ∈ c.objectPoints, l.Nodup) :
    getSharedPoints c c = (c, c) := by
  simp only [getSharedPoints]
  rw [getSharedLists_self c.objectPoints c.imagePoints hc hnd]

/-- Witness for the amended C7 on a one-image collection with two
distinct object points. -/
theorem C7_witness :
    getSharedPoints ⟨[], [], [[⟨1, 1⟩, ⟨2, 2⟩]], [[⟨1, 1, 1⟩, ⟨2, 2, 2⟩]]⟩
        ⟨[], [], [[⟨1, 1⟩, ⟨2, 2⟩]], [[⟨1, 1, 1⟩, ⟨2, 2, 2⟩]]⟩ =
      (⟨[], [], [[⟨1, 1⟩, ⟨2, 2⟩]], [[⟨1, 1, 1⟩, ⟨2, 2, 2⟩]]⟩,
       ⟨[], [], [[⟨1, 1⟩, ⟨2, 2⟩]], [[⟨1, 1, 1⟩, ⟨2, 2, 2⟩]]⟩) :=
  C7_amended_idempotent ⟨[], [], [[⟨1, 1⟩, ⟨2, 2⟩]], [[⟨1, 1, 1⟩, ⟨2, 2, 2⟩]]⟩
    (by decide) (by decide)

theorem arucoDetectConfigs_empty (planeList : List String)
    (cfgs : List (List MapMarker × List Marker))
    (hdet : ∀ cfg ∈ cfgs, cfg.2 = ([] : List Marker)) :
    ∀ (j : Nat) (acc : List Point2 × List Point3),
      arucoDetectConfigs planeList cfgs j acc = acc := by
  induction cfgs with
  | nil => intro j acc; rfl
  | cons cfg rest ih =>
    intro j acc
    obtain ⟨mmap, det⟩ := cfg
    have hd : det = [] := hdet (mmap, det) (by simp)
    subst hd
    have hobj : getIntPoints planeList (calcArucoCorners [] mmap).2 j = [] := by
      rcases getIntPoints_length_or planeList (calcArucoCorners [] mmap).2 j with h | h
      · exact h
      · refine List.length_eq_zero.mp ?_
        rw [h]
        rfl
    simp only [arucoDetectConfigs, hobj, List.length_nil, lt_self_iff_false, if_false]
    exact ih (fun c hcmem => hdet c (by simp [hcmem])) (j + 1) acc

/-- Counterexample for C3: a chessboard image where the pattern is not
found appends NOTHING to the collection — starting from an empty
collection the output still has zero entries rather than one newly
appended empty set, so the image is dropped from the chessboard
collection instead of being recorded as an empty set. -/
theorem C3_counterexample :
    (chessboardDetect false [] 9 6 1 ⟨[], [], [], []⟩).imagePoints = [] ∧
    (chessboardDetect false [] 9 6 1 ⟨[], [], [], []⟩).imagePoints ≠ [([] : List Point2)] := by
  refine ⟨rfl, by decide⟩

/-- C3 amended: a detection miss never aborts the run and never disturbs
the other images, but the two paths differ. For the aruco patterns the
collections are preallocated with one empty entry per image, and when
every map detects zero markers arucoDetect leaves the calibration struct
unchanged, so the empty set for the image stays in place and index
alignment with the sibling camera is preserved. For the chessboard a
not-found image also leaves the struct unchanged, but since the
chessboard collection is NOT preallocated, no empty set is appended and
the image is dropped from that collection. -/
theorem C3_amended_detection_miss (planeList : List String)
    (configs : List (List MapMarker × List Marker)) (vi : Nat)
    (c : IntrinsicCalibration)
    (hdet : ∀ cfg ∈ configs, cfg.2 = ([] : List Marker))
    (corners : List Point2) (w h : Nat) (sq : ℚ) :
    arucoDetect planeList configs c vi = c ∧
    chessboardDetect false corners w h sq c = c := by
  constructor
  · unfold arucoDetect
    rw [arucoDetectConfigs_empty planeList configs hdet]
    simp only [set_getD_self]
  · rfl

/-- Witness for the amended C3: one aruco config with zero detections on
a preallocated one-image collection, and a not-found chessboard image. -/
theorem C3_witness :
    arucoDetect ["XY"] [([], [])] ⟨[], [], [[]], [[]]⟩ 0 = ⟨[], [], [[]], [[]]⟩ ∧
    chessboardDetect false [] 9 6 1 ⟨[], [], [[]], [[]]⟩ = ⟨[], [], [[]], [[]]⟩ :=
  C3_amended_detection_miss ["XY"] [([], [])] 0 ⟨[], [], [[]], [[]]⟩ (by decide) [] 9 6 1

/-- C8: every operation that creates or mutates a Point Correspondence
Set preserves the invariant that the 2D and 3D sequences agree in length
image by image: chessboard detection (using the external detector
contract that a found board yields boardWidth * boardHeight corners),
aruco detection with plane unification, and shared-point matching for
both cameras. -/
theorem C8_invariant_preserved (c c2 : IntrinsicCalibration)
    (found : Bool) (corners : List Point2) (w h : Nat) (sq : ℚ)
    (planeList : List String) (configs : List (List MapMarker × List Marker)) (vi : Nat)
    (hc : pcsInvariant c) (hc2 : pcsInvariant c2)
    (hcorners : corners.length = w * h)
    (hlen : c.objectPoints.length = c2.objectPoints.length) :
    pcsInvariant (chessboardDetect found corners w h sq c) ∧
    pcsInvariant (arucoDetect planeList configs c vi) ∧
    pcsInvariant (getSharedPoints c c2).1 ∧
    pcsInvariant (getSharedPoints c c2).2 := by
  have hci := (mapLen_eq_iff c.imagePoints c.objectPoints).mp hc
  have hc2i := (mapLen_eq_iff c2.imagePoints c2.objectPoints).mp hc2
  obtain ⟨k1, k2, k3, k4, k5, k6⟩ :=
    getSharedLists_spec c.objectPoints c.imagePoints c2.objectPoints c2.imagePoints
      hci.1 hlen.symm (by omega)
  refine ⟨?_, ?_, ?_, ?_⟩
  · cases found with
    | false => simpa [chessboardDetect] using hc
    | true =>
      unfold pcsInvariant chessboardDetect
      simp only [if_true]
      rw [List.map_append, List.map_append, hc]
      congr 1
      simp [calcChessboardCorners_length, hcorners, Nat.mul_comm]
  · unfold pcsInvariant arucoDetect
    simp only [List.map_set]
    rw [hc]
    congr 1
    exact arucoDetectConfigs_len planeList configs 0 _ (hci.2 vi)
  · simp only [getSharedPoints, pcsInvariant]
    rw [mapLen_eq_iff]
    refine ⟨by omega, fun i => ?_⟩
    obtain ⟨e1, e2, e3⟩ := k6 i
    rw [e1, e2]
    exact (getSharedImage_lengths _ _ _ _).1
  · simp only [getSharedPoints, pcsInvariant]
    rw [mapLen_eq_iff]
    refine ⟨by omega, fun i => ?_⟩
    obtain ⟨e1, e2, e3⟩ := k6 i
    rw [e3, k5, e1]
    exact (getSharedImage_lengths _ _ _ _).2

/-- Witness for C8: a found 2 by 1 chessboard appended to an empty
collection keeps the image and object sequences aligned. -/
theorem C8_witness :
    pcsInvariant (chessboardDetect true [⟨0, 0⟩, ⟨1, 0⟩] 2 1 1 ⟨[], [], [], []⟩) :=
  (C8_invariant_preserved ⟨[], [], [], []⟩ ⟨[], [], [], []⟩ true [⟨0, 0⟩, ⟨1, 0⟩] 2 1 1
    ["XY"] [] 0 (by decide) (by decide) (by decide) (by decide)).1

theorem imageSqErr_nonneg (a b : List (ℝ × ℝ)) : 0 ≤ imageSqErr a b := by
  unfold imageSqErr
  apply List.sum_nonneg
  intro x hx
  simp only [List.mem_map] at hx
  obtain ⟨q, hq, rfl⟩ := hx
  positivity

theorem imageSqErr_self (a : List (ℝ × ℝ)) : imageSqErr a a = 0 := by
  unfold imageSqErr
  induction a with
  | nil => simp
  | cons x a ih =>
    rw [List.zip_cons_cons, List.map_cons, List.sum_cons]
    unfold imageSqErr at ih
    rw [ih]
    ring

theorem reprojLoop_spec (imgs : List (List (ℝ × ℝ) × List (ℝ × ℝ))) :
    ∀ tE tP : ℝ,
      (reprojLoop imgs tE tP).1 =
        imgs.map (fun g => Real.sqrt (imageSqErr g.1 g.2 / ((g.2.length : ℕ) : ℝ))) ∧
      (reprojLoop imgs tE tP).2.1 = tE + (imgs.map (fun g => imageSqErr g.1 g.2)).sum ∧
      (reprojLoop imgs tE tP).2.2 = tP + (imgs.map (fun g => ((g.2.length : ℕ) : ℝ))).sum := by
  induction imgs with
  | nil =>
    intro tE tP
    refine ⟨rfl, by simp [reprojLoop], by simp [reprojLoop]⟩
  | cons g rest ih =>
    intro tE tP
    have hsq : Real.sqrt (imageSqErr g.1 g.2) * Real.sqrt (imageSqErr g.1 g.2) =
        imageSqErr g.1 g.2 := Real.mul_self_sqrt (imageSqErr_nonneg g.1 g.2)
    obtain ⟨i1, i2, i3⟩ := ih
      (tE + Real.sqrt (imageSqErr g.1 g.2) * Real.sqrt (imageSqErr g.1 g.2))
      (tP + ((g.2.length : ℕ) : ℝ))
    simp only [reprojLoop]
    refine ⟨?_, ?_, ?_⟩
    · rw [List.map_cons]
      rw [i1, hsq]
    · rw [i2, hsq, List.map_cons, List.sum_cons]
      ring
    · rw [i3, List.map_cons, List.sum_cons]
      ring

/-- C5: computeReprojectionErrors returns the per-image error
sqrt(e_i / n_i) and the overall average sqrt((sum of e_i) / (sum of
n_i)) — the weighted root-mean-square over all individual point
residuals, not the mean of the per-image errors — where e_i is the
summed squared residual of image i and n_i its reprojected point count;
every returned value is non-negative, and the average is zero whenever
every observed 2D point list equals its noiseless reprojection. -/
theorem C5_computeReprojectionErrors (imgs : List (List (ℝ × ℝ) × List (ℝ × ℝ))) :
    (computeReprojectionErrors imgs).1 =
      imgs.map (fun g => Real.sqrt (imageSqErr g.1 g.2 / ((g.2.length : ℕ) : ℝ))) ∧
    (computeReprojectionErrors imgs).2 =
      Real.sqrt ((imgs.map (fun g => imageSqErr g.1 g.2)).sum /
        (imgs.map (fun g => ((g.2.length : ℕ) : ℝ))).sum) ∧
    (∀ e ∈ (computeReprojectionErrors imgs).1, 0 ≤ e) ∧
    0 ≤ (computeReprojectionErrors imgs).2 ∧
    ((∀ g ∈ imgs, g.1 = g.2) → (computeReprojectionErrors imgs).2 = 0) := by
  obtain ⟨i1, i2, i3⟩ := reprojLoop_spec imgs 0 0
  unfold computeReprojectionErrors
  simp only [i1, i2, i3, zero_add]
  refine ⟨trivial, trivial, ?_, Real.sqrt_nonneg _, ?_⟩
  · intro e he
    simp only [List.mem_map] at he
    obtain ⟨g, hg, rfl⟩ := he
    exact Real.sqrt_nonneg _
  · intro hobs
    have hzero : (imgs.map (fun g => imageSqErr g.1 g.2)).sum = 0 := by
      apply List.sum_eq_zero
      intro x hx
      simp only [List.mem_map] at hx
      obtain ⟨g, hg, rfl⟩ := hx
      rw [hobs g hg]
      exact imageSqErr_self g.2
    rw [hzero, zero_div, Real.sqrt_zero]

/-- Witness for C5: a single image whose observed points equal their
reprojection has overall average error zero. -/
theorem C5_witness :
    (computeReprojectionErrors [([((1 : ℝ), (2 : ℝ))], [((1 : ℝ), (2 : ℝ))])]).2 = 0 :=
  (C5_computeReprojectionErrors [([(1, 2)], [(1, 2)])]).2.2.2.2 (by simp)

end Calib
